import Mathlib

/-!
Shallow embedding of the address-book program (src/main.py) and proofs of
the specification claims.

Modelling conventions:
* Python `datetime.date` values become the `Date` structure below
  (year, month, day as `Nat`); the proleptic Gregorian calendar helpers
  (`isLeap`, `daysInMonth`, `toOrdinal`, `weekday`) mirror CPython's
  `datetime` module.  `date.weekday()` is Monday = 0 .. Sunday = 6,
  computed from the proleptic ordinal exactly as CPython does.
* Fallible Python constructors (raising `ValueError`) become functions
  into `Except VErr _`; the two error flavours the spec distinguishes
  (validation vs not-found) are the two constructors of `VErr`.
* Python strings are Lean `String`s; `str.isdigit` is modelled for the
  ASCII range (`Char.isDigit`) plus its non-emptiness requirement.
  Unicode digit classes beyond ASCII are elided.
* Mutating methods on `Record` are translated in a state-passing style
  `Record → ... → Record × Option VErr`: the returned record is the
  object state after the method body ran (mirroring the order of the
  statements in the source), and the `Option VErr` is the raised error.
* `AddressBook` is the insertion-ordered association list that a Python
  `dict` is: assignment to an existing key updates the value in place
  (keeping the key's position), assignment to a fresh key appends.
* `get_upcoming_birthdays` reads `date.today()` internally; following
  the code's data flow it is modelled with `today` as an explicit
  parameter.  The loop is translated in the same state-passing style so
  that the frame claim (C10) is a theorem about the returned book.
-/

/-- Error values raised by the program: Python raises `ValueError` in all
the modelled places; the spec distinguishes validation failures from
not-found failures, which we record in the constructor. -/
inductive VErr where
  | validation : String → VErr
  | notFound : String → VErr
deriving DecidableEq, Repr

/-- A calendar date, mirroring `datetime.date` (year, month, day). -/
structure Date where
  year : Nat
  month : Nat
  day : Nat
deriving DecidableEq, Repr

/-- Gregorian leap-year rule, as in CPython `datetime._is_leap`. -/
def isLeap (y : Nat) : Bool :=
  (y % 4 == 0 && y % 100 != 0) || y % 400 == 0

/-- Days in a month, as in CPython `datetime._days_in_month`. -/
def daysInMonth (y m : Nat) : Nat :=
  if m = 2 then (if isLeap y then 29 else 28)
  else if m = 4 || m = 6 || m = 9 || m = 11 then 30
  else 31

/-- Days in the months strictly before month `m` of year `y`
(CPython `datetime._days_before_month`). -/
def daysBeforeMonth (y : Nat) : Nat → Nat
  | 0 => 0
  | 1 => 0
  | m + 2 => daysBeforeMonth y (m + 1) + daysInMonth y (m + 1)

/-- Days before January 1st of year `y`
(CPython `datetime._days_before_year`). -/
def daysBeforeYear (y : Nat) : Nat :=
  365 * (y - 1) + (y - 1) / 4 + (y - 1) / 400 - (y - 1) / 100

/-- Proleptic Gregorian ordinal of a date (CPython `date.toordinal`);
January 1 of year 1 is ordinal 1. -/
def toOrdinal (d : Date) : Nat :=
  daysBeforeYear d.year + daysBeforeMonth d.year d.month + d.day

/-- Day of week, Monday = 0 .. Sunday = 6 (CPython `date.weekday`). -/
def weekday (d : Date) : Nat :=
  (toOrdinal d - 1) % 7

/-- The day after `d` in the calendar.  `date + timedelta(days=n)` is
modelled as `n` iterations of this successor, which agrees with
CPython's ordinal-based addition on valid dates. -/
def nextDay (d : Date) : Date :=
  if d.day < daysInMonth d.year d.month then ⟨d.year, d.month, d.day + 1⟩
  else if d.month < 12 then ⟨d.year, d.month + 1, 1⟩
  else ⟨d.year + 1, 1, 1⟩

/-- `d + timedelta(days=n)`. -/
def addDays (d : Date) : Nat → Date
  | 0 => d
  | n + 1 => nextDay (addDays d n)

/-- Strict comparison of dates (CPython compares the
(year, month, day) triples lexicographically). -/
def dateLt (a b : Date) : Bool :=
  a.year < b.year ||
    (a.year == b.year &&
      (a.month < b.month || (a.month == b.month && a.day < b.day)))

/-- Non-strict date comparison. -/
def dateLe (a b : Date) : Bool :=
  dateLt a b || a == b

/-- The invariant that `datetime.date` enforces at construction:
year in `MINYEAR..MAXYEAR` (1..9999), month 1..12, day within the
month. -/
def Date.valid (d : Date) : Bool :=
  1 ≤ d.year && d.year ≤ 9999 && 1 ≤ d.month && d.month ≤ 12 &&
    1 ≤ d.day && d.day ≤ daysInMonth d.year d.month

/-- The part of `Date.valid` that does not bound the year above; this is
what the ordinal/weekday lemmas need. -/
def Date.okRange (d : Date) : Prop :=
  1 ≤ d.year ∧ 1 ≤ d.month ∧ d.month ≤ 12 ∧ 1 ≤ d.day ∧
    d.day ≤ daysInMonth d.year d.month

instance (d : Date) : Decidable d.okRange := by
  unfold Date.okRange; infer_instance

def yearOutOfRangeMsg : String := "year is out of range"
def monthOutOfRangeMsg : String := "month must be in 1..12"
def dayOutOfRangeMsg : String := "day is out of range for month"

/-- `d.replace(year=y)`: rebuilds the date with a new year, re-running
the `datetime.date` constructor checks (CPython raises `ValueError`
when, e.g., the result would be February 29 of a non-leap year). -/
def dateReplaceYear (d : Date) (y : Nat) : Except VErr Date :=
  if !(1 ≤ y && y ≤ 9999) then .error (.validation yearOutOfRangeMsg)
  else if !(1 ≤ d.month && d.month ≤ 12) then .error (.validation monthOutOfRangeMsg)
  else if !(1 ≤ d.day && d.day ≤ daysInMonth y d.month) then .error (.validation dayOutOfRangeMsg)
  else .ok ⟨y, d.month, d.day⟩

/-! ### Rendering and parsing of dates ("DD.MM.YYYY") -/

/-- Decimal digit character for `k ≤ 9`. -/
def digitChar : Nat → Char
  | 0 => '0' | 1 => '1' | 2 => '2' | 3 => '3' | 4 => '4'
  | 5 => '5' | 6 => '6' | 7 => '7' | 8 => '8' | _ => '9'

/-- Numeric value of a digit character. -/
def charVal (c : Char) : Nat := c.toNat - 48

/-- Zero-padded two-digit rendering (strftime `%d` / `%m`). -/
def pad2 (n : Nat) : List Char :=
  [digitChar (n / 10 % 10), digitChar (n % 10)]

/-- Four-digit rendering of the year (strftime `%Y`).  CPython delegates
`%Y` to the platform; for years ≥ 1000 (every realistic one) all
platforms agree with this zero-padded form, which is the form the
documentation shows. -/
def pad4 (n : Nat) : List Char :=
  [digitChar (n / 1000 % 10), digitChar (n / 100 % 10),
   digitChar (n / 10 % 10), digitChar (n % 10)]

/-- Character list of `d.strftime("%d.%m.%Y")`. -/
def renderChars (d : Date) : List Char :=
  pad2 d.day ++ ['.'] ++ pad2 d.month ++ ['.'] ++ pad4 d.year

/-- `d.strftime("%d.%m.%Y")`. -/
def renderDate (d : Date) : String := ⟨renderChars d⟩

/-- Splits a character list at every dot, the shape in which
`strptime(value, "%d.%m.%Y")` consumes its input: the day, month and
year fields of the format can never contain a dot, so the regex that
CPython compiles for this format matches exactly when the maximal
dot-free segments of the input match the three field patterns. -/
def splitOnDot : List Char → List (List Char)
  | [] => [[]]
  | '.' :: rest => [] :: splitOnDot rest
  | c :: rest =>
    match splitOnDot rest with
    | [] => [[c]]
    | g :: gs => (c :: g) :: gs

/-- Numeric value of a digit string. -/
def natOfDigits (cs : List Char) : Nat :=
  cs.foldl (fun a c => a * 10 + charVal c) 0

/-- The `%d` field of CPython `_strptime`: regex
`3[01]|[12]\d|0[1-9]|[1-9]`, i.e. one or two digit characters whose
value is between 1 and 31. -/
def matchDayField : List Char → Option Nat
  | [c] => if c.isDigit && charVal c != 0 then some (charVal c) else none
  | [c1, c2] =>
    if c1.isDigit && c2.isDigit then
      if 1 ≤ charVal c1 * 10 + charVal c2 && charVal c1 * 10 + charVal c2 ≤ 31 then
        some (charVal c1 * 10 + charVal c2)
      else none
    else none
  | _ => none

/-- The `%m` field of CPython `_strptime`: regex
`1[0-2]|0[1-9]|[1-9]`, i.e. one or two digit characters whose value is
between 1 and 12. -/
def matchMonthField : List Char → Option Nat
  | [c] => if c.isDigit && charVal c != 0 then some (charVal c) else none
  | [c1, c2] =>
    if c1.isDigit && c2.isDigit then
      if 1 ≤ charVal c1 * 10 + charVal c2 && charVal c1 * 10 + charVal c2 ≤ 12 then
        some (charVal c1 * 10 + charVal c2)
      else none
    else none
  | _ => none

/-- The `%Y` field of CPython `_strptime`: regex `\d\d\d\d`, exactly
four digit characters. -/
def matchYearField : List Char → Option Nat
  | [c1, c2, c3, c4] =>
    if c1.isDigit && c2.isDigit && c3.isDigit && c4.isDigit then
      some (charVal c1 * 1000 + charVal c2 * 100 + charVal c3 * 10 + charVal c4)
    else none
  | _ => none

/-! ### Field value types (Phone, Birthday) -/

/-- Wrapper for the contact name (class `Name`, no validation). -/
structure Name where
  value : String
deriving DecidableEq, Repr

/-- A validated phone number (class `Phone`). -/
structure Phone where
  value : String
deriving DecidableEq, Repr

/-- Model of Python `str.isdigit` on the ASCII range: non-empty and
every character a decimal digit. -/
def pyIsdigit (s : String) : Bool :=
  !s.data.isEmpty && s.data.all Char.isDigit

def phoneFormatMsg : String := "phone number must consist of 10 digits"

/-- `Phone.__init__` (src/main.py lines 22-27): rejects any value that
is not a 10-character digit string.  The `isinstance(value, str)` guard
always passes in this typed model; the source message additionally
quotes the offending value. -/
def Phone.init (value : String) : Except VErr Phone :=
  if !(pyIsdigit value) || value.length != 10 then
    .error (.validation phoneFormatMsg)
  else .ok ⟨value⟩

/-- `Field.__str__` on a phone. -/
def Phone.toString (p : Phone) : String := p.value

/-- A validated birthday (class `Birthday`); stores the parsed date. -/
structure Birthday where
  value : Date
deriving DecidableEq, Repr

def invalidDateMsg : String := "Invalid date format. Use DD.MM.YYYY"

/-- `Birthday.__init__` (src/main.py lines 32-36):
`datetime.strptime(value, "%d.%m.%Y")` followed by `.date()`; every
parse or range failure is re-raised as the fixed message.  The final
`if` mirrors the `datetime` constructor checks that run inside
`strptime` once the fields have matched (the month field already
guarantees 1..12, and four digits already guarantee the year is below
10000). -/
def Birthday.init (value : String) : Except VErr Birthday :=
  match splitOnDot value.data with
  | [ds, ms, ys] =>
    match matchDayField ds, matchMonthField ms, matchYearField ys with
    | some d, some m, some y =>
      if 1 ≤ y && d ≤ daysInMonth y m then .ok ⟨⟨y, m, d⟩⟩
      else .error (.validation invalidDateMsg)
    | _, _, _ => .error (.validation invalidDateMsg)
  | _ => .error (.validation invalidDateMsg)

/-- `Birthday.__str__`: `self.value.strftime("%d.%m.%Y")`. -/
def Birthday.toString (b : Birthday) : String := renderDate b.value

/-! ### Record -/

/-- One contact (class `Record`): a name, an ordered phone list, an
optional birthday. -/
structure Record where
  name : Name
  phones : List Phone
  birthday : Option Birthday
deriving DecidableEq, Repr

/-- `Record.__init__`. -/
def Record.init (name : String) : Record :=
  ⟨⟨name⟩, [], none⟩

/-- `Record.add_phone` (src/main.py lines 49-50):
`self.phones.append(Phone(phone))` — the `Phone` constructor runs
first, so a validation failure leaves the list untouched. -/
def Record.add_phone (r : Record) (phone : String) : Record × Option VErr :=
  match Phone.init phone with
  | .error e => (r, some e)
  | .ok p => ({ r with phones := r.phones ++ [p] }, none)

/-- `Record.find_phone` (src/main.py lines 71-75): first phone whose
value equals the argument. -/
def Record.find_phone (r : Record) (phone : String) : Option Phone :=
  r.phones.find? (fun p => p.value == phone)

def phoneNotFoundMsg : String := "phone not found in record"

/-- `Record.remove_phone` (src/main.py lines 52-59): `find_phone` and,
when found, `self.phones.remove(phone_obj)`.  Since `find_phone`
returns the first value match and `list.remove` deletes the first
element equal to that very object, the net effect is deletion at the
first matching index.  The source message quotes the phone and the
record name. -/
def Record.remove_phone (r : Record) (phone : String) : Record × Option VErr :=
  match r.phones.findIdx? (fun p => p.value == phone) with
  | some i => ({ r with phones := r.phones.eraseIdx i }, none)
  | none => (r, some (.notFound phoneNotFoundMsg))

/-- `Record.edit_phone` (src/main.py lines 61-69): `find_phone`, then
`idx = self.phones.index(phone_obj)` (the index of that same first
matching object), then `self.phones[idx] = Phone(new_phone)`.  The new
`Phone` is constructed after the index is taken and before the store,
so a validation failure leaves the list untouched. -/
def Record.edit_phone (r : Record) (old_phone new_phone : String) : Record × Option VErr :=
  match r.phones.findIdx? (fun p => p.value == old_phone) with
  | none => (r, some (.notFound phoneNotFoundMsg))
  | some i =>
    match Phone.init new_phone with
    | .error e => (r, some e)
    | .ok p => ({ r with phones := r.phones.set i p }, none)

/-- `Record.add_birthday` (src/main.py lines 77-78). -/
def Record.add_birthday (r : Record) (birthday : String) : Record × Option VErr :=
  match Birthday.init birthday with
  | .error e => (r, some e)
  | .ok b => ({ r with birthday := some b }, none)

/-! ### AddressBook -/

/-- One element of the result of `get_upcoming_birthdays`: Python dict
`{"name": ..., "congratulation_date": ...}`. -/
structure Entry where
  name : String
  congratulation_date : String
deriving DecidableEq, Repr

/-- The book (class `AddressBook(UserDict)`): the underlying dict as an
insertion-ordered association list. -/
structure AddressBook where
  data : List (String × Record)
deriving DecidableEq, Repr

/-- Python `dict.__setitem__`: update in place if the key is present
(keeping its position), else append. -/
def dictInsert : List (String × Record) → String → Record → List (String × Record)
  | [], k, v => [(k, v)]
  | (k1, v1) :: rest, k, v =>
    if k1 == k then (k, v) :: rest else (k1, v1) :: dictInsert rest k v

/-- `AddressBook.add_record` (src/main.py lines 88-89):
`self.data[record.name.value] = record`. -/
def AddressBook.add_record (book : AddressBook) (record : Record) : AddressBook :=
  ⟨dictInsert book.data record.name.value record⟩

/-- `AddressBook.find` (src/main.py lines 91-92): `self.data.get(name)`. -/
def AddressBook.find (book : AddressBook) (name : String) : Option Record :=
  (book.data.find? (fun p => p.1 == name)).map (·.2)

/-- `AddressBook.delete` (src/main.py lines 94-96): delete the key if
present, silently do nothing otherwise. -/
def AddressBook.delete (book : AddressBook) (name : String) : AddressBook :=
  ⟨book.data.eraseP (fun p => p.1 == name)⟩

/-- The body of the `for record in self.data.values()` loop of
`get_upcoming_birthdays` (src/main.py lines 103-123), one record at a
time, in state-passing style: the returned `Record` is the record after
the body ran (the body only reads it).  An `Except.error` models the
`ValueError` that `date.replace` raises escaping the method. -/
def processRecordS (today : Date) (r : Record) : Except VErr (Option Entry) × Record :=
  match r.birthday with
  | none => (.ok none, r)
  | some bobj =>
    let bday := bobj.value
    match dateReplaceYear bday today.year with
    | .error e => (.error e, r)
    | .ok d1 =>
      match (if dateLt d1 today then dateReplaceYear d1 (today.year + 1) else .ok d1) with
      | .error e => (.error e, r)
      | .ok d2 =>
        if dateLe today d2 && dateLe d2 (addDays today 7) then
          let cd := if weekday d2 == 5 then addDays d2 2
                    else if weekday d2 == 6 then addDays d2 1
                    else d2
          (.ok (some ⟨r.name.value, renderDate cd⟩), r)
        else (.ok none, r)

/-- The whole loop of `get_upcoming_birthdays` over the remaining
records, threading every record through `processRecordS` and collecting
the `upcoming` list in iteration order; the returned association list
is the dict contents after the loop.  A raised error aborts the loop,
as in Python. -/
def collectUpcomingS (today : Date) :
    List (String × Record) → Except VErr (List Entry) × List (String × Record)
  | [] => (.ok [], [])
  | (k, r) :: rest =>
    match processRecordS today r with
    | (.error e, r1) => (.error e, (k, r1) :: rest)
    | (.ok o, r1) =>
      match collectUpcomingS today rest with
      | (res, rest1) => ((res.map fun l => o.toList ++ l), (k, r1) :: rest1)

/-- `AddressBook.get_upcoming_birthdays` (src/main.py lines 98-125) with
`date.today()` passed in as `today`.  Returns the produced list (or the
escaping error) together with the book after the call. -/
def AddressBook.get_upcoming_birthdays (book : AddressBook) (today : Date) :
    Except VErr (List Entry) × AddressBook :=
  match collectUpcomingS today book.data with
  | (res, l) => (res, ⟨l⟩)

/-! ### Specification-side definitions used to state the claims -/

/-- The claim-side description of the candidate congratulation date: the
birthday with its year replaced by the current year, rolled forward to
the following year when that date is earlier than today; `none` when
either replacement is impossible (Feb 29 in a non-leap target year). -/
def rolledBday (today : Date) (b : Date) : Option Date :=
  match dateReplaceYear b today.year with
  | .error _ => none
  | .ok d1 =>
    if dateLt d1 today then (dateReplaceYear d1 (today.year + 1)).toOption
    else some d1

/-- The claim-side inclusion condition of C2: the record has a birthday
whose rolled-forward date lies in the inclusive window
`[today, today + 7 days]`. -/
def recordQualifies (today : Date) (r : Record) : Bool :=
  match r.birthday with
  | none => false
  | some bobj =>
    match rolledBday today bobj.value with
    | none => false
    | some d => dateLe today d && dateLe d (addDays today 7)

/-- Well-formedness of a book that was built through `add_record`: keys
are pairwise distinct and each record sits under its own name. -/
def AddressBook.WF (book : AddressBook) : Prop :=
  (book.data.map Prod.fst).Nodup ∧ ∀ p ∈ book.data, p.1 = p.2.name.value

instance (book : AddressBook) : Decidable book.WF := by
  unfold AddressBook.WF; infer_instance

/-- The claim-side reading of "exact DD.MM.YYYY textual format" in C5: a
two-digit day, a dot, a two-digit month, a dot, a four-digit year,
denoting a real calendar date. -/
def specExactDDMMYYYY (s : String) : Bool :=
  match s.data with
  | [d1, d2, c1, m1, m2, c2, y1, y2, y3, y4] =>
    c1 == '.' && c2 == '.' &&
    [d1, d2, m1, m2, y1, y2, y3, y4].all Char.isDigit &&
    Date.valid ⟨natOfDigits [y1, y2, y3, y4], natOfDigits [m1, m2], natOfDigits [d1, d2]⟩
  | _ => false

/-- The amended acceptance condition for `Birthday` construction: day
and month written with one or two digits (a leading zero optional, as
`strptime` allows), the year with exactly four digits, the three
numbers denoting a real calendar date. -/
def specLenientFormat (s : String) : Bool :=
  match splitOnDot s.data with
  | [ds, ms, ys] =>
    ds.all Char.isDigit && (ds.length == 1 || ds.length == 2) &&
    ms.all Char.isDigit && (ms.length == 1 || ms.length == 2) &&
    ys.all Char.isDigit && ys.length == 4 &&
    Date.valid ⟨natOfDigits ys, natOfDigits ms, natOfDigits ds⟩
  | _ => false

/-! ### Theorems.  First the Phone claims. -/

/-- Closed form of `Phone.init`. -/
theorem Phone.init_eq (s : String) :
    Phone.init s =
      if s.data.all Char.isDigit = true ∧ s.length = 10 then Except.ok ⟨s⟩
      else Except.error (.validation phoneFormatMsg) := by
  have hlen : s.length = s.data.length := rfl
  unfold Phone.init pyIsdigit
  by_cases h : s.data.all Char.isDigit = true ∧ s.length = 10
  · have hne : s.data.isEmpty = false := by
      rcases h with ⟨h1, h2⟩
      cases hd : s.data with
      | nil => rw [hlen, hd] at h2; simp at h2
      | cons a l => simp [hd]
    rw [if_pos h]
    rcases h with ⟨h1, h2⟩
    simp [hne, h1, h2]
  · rw [if_neg h]
    rcases Decidable.not_and_iff_or_not.mp h with h1 | h2
    · have h1 : s.data.all Char.isDigit = false := by
        cases hx : s.data.all Char.isDigit
        · rfl
        · exact absurd hx h1
      simp [h1]
    · have h2 : s.length ≠ 10 := h2
      simp [h2]

/-- C3: `Phone` construction succeeds exactly on strings of ten decimal
digits, in which case the stored value and the string rendering equal
the input; on every other string it fails with a validation error. -/
theorem phone_validation_correct (s : String) :
    ((∃ p, Phone.init s = Except.ok p ∧ Phone.toString p = s) ↔
      (s.data.all Char.isDigit = true ∧ s.length = 10)) ∧
    ((∃ m, Phone.init s = Except.error (VErr.validation m)) ↔
      ¬(s.data.all Char.isDigit = true ∧ s.length = 10)) := by
  rw [Phone.init_eq s]
  by_cases h : s.data.all Char.isDigit = true ∧ s.length = 10
  · rw [if_pos h]
    constructor
    · constructor
      · intro _; exact h
      · intro _; exact ⟨⟨s⟩, rfl, rfl⟩
    · constructor
      · rintro ⟨m, hm⟩; cases hm
      · intro hc; exact absurd h hc
  · rw [if_neg h]
    constructor
    · constructor
      · rintro ⟨p, hp, _⟩; cases hp
      · intro hc; exact absurd hc h
    · constructor
      · intro _; exact h
      · intro _; exact ⟨phoneFormatMsg, rfl⟩

/-! ### Atomicity of the Record mutators and the frame of the query -/

/-- C9: when `add_phone`, `remove_phone` or `edit_phone` raises (a
validation error or a not-found error), the record — name, phone list
with its order, birthday — is exactly what it was before the call. -/
theorem record_mutators_atomic (r : Record) (s old_phone new_phone : String) :
    ((r.add_phone s).2.isSome = true → (r.add_phone s).1 = r) ∧
    ((r.remove_phone s).2.isSome = true → (r.remove_phone s).1 = r) ∧
    ((r.edit_phone old_phone new_phone).2.isSome = true →
      (r.edit_phone old_phone new_phone).1 = r) := by
  refine ⟨?_, ?_, ?_⟩
  · unfold Record.add_phone
    cases Phone.init s <;> simp
  · unfold Record.remove_phone
    cases r.phones.findIdx? (fun p => p.value == s) <;> simp
  · unfold Record.edit_phone
    cases r.phones.findIdx? (fun p => p.value == old_phone)
    · simp
    · cases Phone.init new_phone <;> simp

/-- Witness for C9: a failing `add_phone` (malformed number), a failing
`remove_phone` (absent number) and a failing `edit_phone` (absent old
number) on a concrete record all leave it unchanged. -/
theorem record_mutators_atomic_witness :
    ((Record.add_phone ⟨⟨"A"⟩, [⟨"1111111111"⟩], none⟩ "12").2.isSome = true ∧
      (Record.add_phone ⟨⟨"A"⟩, [⟨"1111111111"⟩], none⟩ "12").1 = ⟨⟨"A"⟩, [⟨"1111111111"⟩], none⟩) ∧
    ((Record.remove_phone ⟨⟨"A"⟩, [⟨"1111111111"⟩], none⟩ "2222222222").2.isSome = true ∧
      (Record.remove_phone ⟨⟨"A"⟩, [⟨"1111111111"⟩], none⟩ "2222222222").1 = ⟨⟨"A"⟩, [⟨"1111111111"⟩], none⟩) ∧
    ((Record.edit_phone ⟨⟨"A"⟩, [⟨"1111111111"⟩], none⟩ "2222222222" "3333333333").2.isSome = true ∧
      (Record.edit_phone ⟨⟨"A"⟩, [⟨"1111111111"⟩], none⟩ "2222222222" "3333333333").1 = ⟨⟨"A"⟩, [⟨"1111111111"⟩], none⟩) :=
  ⟨⟨by decide, (record_mutators_atomic ⟨⟨"A"⟩, [⟨"1111111111"⟩], none⟩ "12" "" "").1 (by decide)⟩,
   ⟨by decide, (record_mutators_atomic ⟨⟨"A"⟩, [⟨"1111111111"⟩], none⟩ "2222222222" "" "").2.1 (by decide)⟩,
   ⟨by decide, (record_mutators_atomic ⟨⟨"A"⟩, [⟨"1111111111"⟩], none⟩ "" "2222222222" "3333333333").2.2 (by decide)⟩⟩

/-- Every record comes back out of the loop body unchanged. -/
theorem processRecordS_snd (today : Date) (r : Record) :
    (processRecordS today r).2 = r := by
  unfold processRecordS
  cases r.birthday with
  | none => rfl
  | some bobj =>
    simp only
    cases dateReplaceYear bobj.value today.year with
    | error e => rfl
    | ok d1 =>
      simp only
      cases (if dateLt d1 today then dateReplaceYear d1 (today.year + 1) else .ok d1) with
      | error e => rfl
      | ok d2 =>
        simp only
        by_cases h : (dateLe today d2 && dateLe d2 (addDays today 7)) = true <;> simp [h]

/-- The loop threads the dict contents through unchanged. -/
theorem collectUpcomingS_snd (today : Date) (l : List (String × Record)) :
    (collectUpcomingS today l).2 = l := by
  induction l with
  | nil => rfl
  | cons p rest ih =>
    obtain ⟨k, r⟩ := p
    unfold collectUpcomingS
    have hr := processRecordS_snd today r
    cases hpr : processRecordS today r with
    | mk res r1 =>
      rw [hpr] at hr
      simp at hr
      cases res with
      | error e => simp [hr]
      | ok o =>
        simp only
        cases hc : collectUpcomingS today rest with
        | mk res2 rest1 =>
          rw [hc] at ih
          simp at ih
          simp [ih, hr]

/-- C10: `get_upcoming_birthdays` is a pure query — the book after the
call has the same key set and the very same records. -/
theorem get_upcoming_birthdays_frame (book : AddressBook) (today : Date) :
    (book.get_upcoming_birthdays today).2 = book ∧
    ((book.get_upcoming_birthdays today).2.data.map Prod.fst = book.data.map Prod.fst) ∧
    (∀ n, (book.get_upcoming_birthdays today).2.find n = book.find n) := by
  have h : (book.get_upcoming_birthdays today).2 = book := by
    unfold AddressBook.get_upcoming_birthdays
    cases hc : collectUpcomingS today book.data with
    | mk res l =>
      have := collectUpcomingS_snd today book.data
      rw [hc] at this
      simp at this
      simp [this]
  exact ⟨h, by rw [h], fun n => by rw [h]⟩

/-! ### C1: the Feb 29 crash -/

/-- A concrete book whose single record has birthday February 29, 2024. -/
def feb29Book : AddressBook :=
  AddressBook.add_record ⟨[]⟩ ⟨⟨"Feb"⟩, [], some ⟨⟨2024, 2, 29⟩⟩⟩

/-- C1 (the code contradicts the claim): with the current date
March 1, 2025 — a non-leap year — the query on `feb29Book` does not
return normally; the `ValueError` from `date.replace(year=2025)`
escapes, exactly the latent defect §9 of the spec flags. -/
theorem feb29_crash :
    (feb29Book.get_upcoming_birthdays ⟨2025, 3, 1⟩).1 =
      Except.error (VErr.validation dayOutOfRangeMsg) := rfl

/-! ### C8: add_record key discipline -/

/-- The last element of a non-trivial cons, split by whether the tail
is empty. -/
theorem getLast?_cons_match (a : α) (l : List α) :
    (a :: l).getLast? =
      match l.getLast? with
      | some x => some x
      | none => some a := by
  rw [List.getLast?_cons]
  cases l.getLast? <;> rfl

/-- Looking a key up after a dict assignment: the assigned key now maps
to the new record, every other key is untouched. -/
theorem find?_dictInsert (l : List (String × Record)) (k : String) (v : Record)
    (key : String) :
    ((dictInsert l k v).find? (fun p => p.1 == key)).map (·.2) =
      if key = k then some v else (l.find? (fun p => p.1 == key)).map (·.2) := by
  induction l with
  | nil =>
    by_cases h : key = k
    · simp [dictInsert, h]
    · simp [dictInsert, h, Ne.symm h]
  | cons p rest ih =>
    obtain ⟨k1, v1⟩ := p
    by_cases h1 : k1 = k
    · subst h1
      by_cases h : key = k1
      · subst h
        simp [dictInsert]
      · simp [dictInsert, h, Ne.symm h]
    · have h1b : (k1 == k) = false := by simp [h1]
      by_cases h : key = k1
      · subst h
        simp [dictInsert, h1b, Ne.symm h1, List.find?_cons_of_pos, h1]
      · by_cases hk : key = k
        · subst hk
          simp [dictInsert, h1b, List.find?_cons_of_neg, Ne.symm h, ih]
        · simp [dictInsert, h1b, List.find?_cons_of_neg, Ne.symm h, ih, hk]

/-- The key set after a dict assignment. -/
theorem keys_dictInsert (l : List (String × Record)) (k : String) (v : Record) :
    (dictInsert l k v).map Prod.fst =
      if k ∈ l.map Prod.fst then l.map Prod.fst else l.map Prod.fst ++ [k] := by
  induction l with
  | nil => simp [dictInsert]
  | cons p rest ih =>
    obtain ⟨k1, v1⟩ := p
    by_cases h1 : k1 = k
    · subst h1
      simp [dictInsert]
    · have h1b : (k1 == k) = false := by simp [h1]
      by_cases hm : k ∈ rest.map Prod.fst
      · simp [dictInsert, h1b, hm, ih, Ne.symm h1]
      · simp [dictInsert, h1b, hm, ih, Ne.symm h1]

/-- Dict assignment preserves distinctness of the keys. -/
theorem nodup_dictInsert (l : List (String × Record)) (k : String) (v : Record)
    (h : (l.map Prod.fst).Nodup) : ((dictInsert l k v).map Prod.fst).Nodup := by
  rw [keys_dictInsert]
  by_cases hm : k ∈ l.map Prod.fst
  · simpa [hm] using h
  · simp only [hm, if_false]
    simp [List.nodup_append, h, hm]

/-- Folding a record list into a book with `add_record`. -/
def mkBook (rs : List Record) : AddressBook :=
  rs.foldl AddressBook.add_record ⟨[]⟩

/-- One `add_record`, seen through `find`. -/
theorem find_add_record (b : AddressBook) (r : Record) (name : String) :
    (b.add_record r).find name =
      if name = r.name.value then some r else b.find name := by
  unfold AddressBook.add_record AddressBook.find
  exact find?_dictInsert b.data r.name.value r name

/-- Lookup after a sequence of `add_record` calls on top of any book:
the last record added under the key wins, and absent that the original
book answers. -/
theorem find_foldl_add_record (rs : List Record) (b : AddressBook) (name : String) :
    (rs.foldl AddressBook.add_record b).find name =
      match (rs.filter (fun r => r.name.value == name)).getLast? with
      | some r => some r
      | none => b.find name := by
  induction rs generalizing b with
  | nil => simp
  | cons r rest ih =>
    rw [List.foldl_cons, ih (b.add_record r), List.filter_cons]
    by_cases hn : r.name.value = name
    · rw [if_pos (by simp [hn]), getLast?_cons_match]
      cases hl : (rest.filter (fun x => x.name.value == name)).getLast? with
      | some r2 => rfl
      | none => simp [find_add_record, hn]
    · rw [if_neg (by simp [hn])]
      cases hl : (rest.filter (fun x => x.name.value == name)).getLast? with
      | some r2 => rfl
      | none => simp [find_add_record, Ne.symm hn]

/-- Keys of a fold of `add_record` stay distinct. -/
theorem nodup_foldl_add_record (rs : List Record) (b : AddressBook)
    (h : (b.data.map Prod.fst).Nodup) :
    (((rs.foldl AddressBook.add_record b).data.map Prod.fst)).Nodup := by
  induction rs generalizing b with
  | nil => exact h
  | cons r rest ih =>
    rw [List.foldl_cons]
    exact ih (b.add_record r) (nodup_dictInsert b.data r.name.value r h)

/-- C8: a book built by any sequence of `add_record` calls never holds
two entries under one name, and `find` answers with the most recently
added record of that name. -/
theorem add_record_key_discipline (rs : List Record) (name : String) :
    ((mkBook rs).data.map Prod.fst).Nodup ∧
    (mkBook rs).find name = (rs.filter (fun r => r.name.value == name)).getLast? := by
  constructor
  · exact nodup_foldl_add_record rs ⟨[]⟩ (by simp)
  · rw [mkBook, find_foldl_add_record]
    cases hl : (rs.filter (fun r => r.name.value == name)).getLast? with
    | some r2 => rfl
    | none => simp [AddressBook.find]

/-! ### C6: edit_phone -/

/-- `findIdx?` returns the index of the first match. -/
theorem findIdx?_eq_some_of_first {α : Type} (p : α → Bool) (l : List α) (i : Nat)
    (hi : i < l.length) (hp : p l[i] = true)
    (hfirst : ∀ j (hj : j < i), p (l.get ⟨j, Nat.lt_trans hj hi⟩) = false) :
    l.findIdx? p = some i := by
  induction l generalizing i with
  | nil => exact absurd hi (by simp)
  | cons a t ih =>
    cases i with
    | zero =>
      rw [List.findIdx?_cons, if_pos (show p a = true from hp)]
    | succ j =>
      have ha : p a = false := hfirst 0 (Nat.succ_pos j)
      rw [List.findIdx?_cons, if_neg (by simp [ha]), List.findIdx?_succ]
      have hj : j < t.length := Nat.lt_of_succ_lt_succ hi
      rw [ih j hj hp (fun j2 hj2 => hfirst (j2 + 1) (Nat.succ_lt_succ hj2))]
      rfl

/-- C6: `edit_phone` replaces the first phone whose value equals
`old_phone` — in place, at its position, all other phones untouched —
when `new_phone` is well-formed; it raises not-found when no phone
matches, and a validation error (leaving the record unchanged, see C9)
when `new_phone` is malformed. -/
theorem edit_phone_correct (r : Record) (old_phone new_phone : String) :
    (∀ (i : Nat) (hi : i < r.phones.length) (p : Phone),
      r.phones[i].value = old_phone →
      (∀ j (hj : j < i), (r.phones.get ⟨j, Nat.lt_trans hj hi⟩).value ≠ old_phone) →
      Phone.init new_phone = Except.ok p →
      r.edit_phone old_phone new_phone =
        ({ r with phones := r.phones.set i p }, none)) ∧
    ((∀ q ∈ r.phones, q.value ≠ old_phone) →
      r.edit_phone old_phone new_phone = (r, some (VErr.notFound phoneNotFoundMsg))) ∧
    (∀ m, (∃ (i : Nat) (hi : i < r.phones.length),
        r.phones[i].value = old_phone) →
      Phone.init new_phone = Except.error (VErr.validation m) →
      r.edit_phone old_phone new_phone = (r, some (VErr.validation m))) := by
  refine ⟨?_, ?_, ?_⟩
  · intro i hi p hmatch hfirst hnew
    have hidx : r.phones.findIdx? (fun q => q.value == old_phone) = some i := by
      apply findIdx?_eq_some_of_first _ _ i hi (by simp [hmatch])
      intro j hj
      simp only [List.get_eq_getElem, beq_eq_false_iff_ne]
      exact hfirst j hj
    unfold Record.edit_phone
    rw [hidx, hnew]
  · intro habs
    have hidx : r.phones.findIdx? (fun q => q.value == old_phone) = none := by
      rw [List.findIdx?_eq_none_iff]
      intro q hq
      simp [habs q hq]
    unfold Record.edit_phone
    rw [hidx]
  · intro m hex hnew
    obtain ⟨i, hi, hmatch⟩ := hex
    have hne : r.phones.findIdx? (fun q => q.value == old_phone) ≠ none := by
      intro hnone
      rw [List.findIdx?_eq_none_iff] at hnone
      have hm : r.phones[i] ∈ r.phones := by
        exact List.getElem_mem hi
      have := hnone _ hm
      simp [hmatch] at this
    unfold Record.edit_phone
    cases hidx : r.phones.findIdx? (fun q => q.value == old_phone) with
    | none => exact absurd hidx hne
    | some j => rw [hnew]

/-- Witness for C6, the spec §8 example: on phones
["1111111111", "2222222222"], editing "1111111111" to "3333333333"
yields ["3333333333", "2222222222"] with position preserved; editing an
absent "9999999999" fails with not-found; and editing "1111111111" to a
malformed "33" fails with a validation error. -/
theorem edit_phone_correct_witness :
    Record.edit_phone ⟨⟨"R"⟩, [⟨"1111111111"⟩, ⟨"2222222222"⟩], none⟩ "1111111111" "3333333333" =
      ({ (⟨⟨"R"⟩, [⟨"1111111111"⟩, ⟨"2222222222"⟩], none⟩ : Record) with
          phones := [⟨"1111111111"⟩, ⟨"2222222222"⟩].set 0 ⟨"3333333333"⟩ }, none) ∧
    Record.edit_phone ⟨⟨"R"⟩, [⟨"1111111111"⟩, ⟨"2222222222"⟩], none⟩ "9999999999" "0000000000" =
      (⟨⟨"R"⟩, [⟨"1111111111"⟩, ⟨"2222222222"⟩], none⟩, some (VErr.notFound phoneNotFoundMsg)) ∧
    Record.edit_phone ⟨⟨"R"⟩, [⟨"1111111111"⟩, ⟨"2222222222"⟩], none⟩ "1111111111" "33" =
      (⟨⟨"R"⟩, [⟨"1111111111"⟩, ⟨"2222222222"⟩], none⟩, some (VErr.validation phoneFormatMsg)) :=
  ⟨(edit_phone_correct ⟨⟨"R"⟩, [⟨"1111111111"⟩, ⟨"2222222222"⟩], none⟩ "1111111111" "3333333333").1
      0 (by decide) ⟨"3333333333"⟩ (by decide) (fun j hj => absurd hj (by omega)) (by rfl),
   (edit_phone_correct ⟨⟨"R"⟩, [⟨"1111111111"⟩, ⟨"2222222222"⟩], none⟩ "9999999999" "0000000000").2.1
      (by decide),
   (edit_phone_correct ⟨⟨"R"⟩, [⟨"1111111111"⟩, ⟨"2222222222"⟩], none⟩ "1111111111" "33").2.2
      phoneFormatMsg ⟨0, by decide, by decide⟩ (by rfl)⟩

/-! ### Calendar arithmetic -/

/-- Month lengths lie between 28 and 31. -/
theorem daysInMonth_bounds (y m : Nat) :
    28 ≤ daysInMonth y m ∧ daysInMonth y m ≤ 31 := by
  unfold daysInMonth
  split_ifs <;> omega

/-- The year-length recurrence of `daysBeforeYear`. -/
theorem daysBeforeYear_succ (y : Nat) (hy : 1 ≤ y) :
    daysBeforeYear (y + 1) =
      daysBeforeYear y + 365 + (if isLeap y then 1 else 0) := by
  obtain ⟨n, rfl⟩ : ∃ n, y = n + 1 := ⟨y - 1, by omega⟩
  have h4 : (n + 1) / 4 = n / 4 + if 4 ∣ n + 1 then 1 else 0 := Nat.succ_div n 4
  have h100 : (n + 1) / 100 = n / 100 + if 100 ∣ n + 1 then 1 else 0 := Nat.succ_div n 100
  have h400 : (n + 1) / 400 = n / 400 + if 400 ∣ n + 1 then 1 else 0 := Nat.succ_div n 400
  have hleap : (isLeap (n + 1) = true) ↔
      (((n + 1) % 4 = 0 ∧ (n + 1) % 100 ≠ 0) ∨ (n + 1) % 400 = 0) := by
    simp [isLeap]
  unfold daysBeforeYear
  simp only [Nat.add_sub_cancel]
  by_cases c4 : 4 ∣ n + 1 <;> by_cases c100 : 100 ∣ n + 1 <;>
    by_cases c400 : 400 ∣ n + 1 <;>
    simp only [c4, c100, c400, if_true, if_false] at h4 h100 h400 <;>
    by_cases hL : isLeap (n + 1) = true <;>
    simp only [hL, if_true, if_false] <;>
    rw [hleap] at hL <;>
    (try simp only [show (false = true) = False from by simp, if_false]) <;>
    (have hA : (n + 1) / 100 ≤ (n + 1) / 4 := Nat.div_le_div_left (by norm_num) (by norm_num)
     have hB : n / 100 ≤ n / 4 := Nat.div_le_div_left (by norm_num) (by norm_num)
     have hC : (n + 1) / 100 ≤ n + 1 := Nat.div_le_self _ _
     have hD : n / 100 ≤ n := Nat.div_le_self _ _
     omega)

/-- The sum of the first eleven month lengths plus December. -/
theorem daysBeforeMonth_12 (y : Nat) :
    daysBeforeMonth y 12 + 31 = 365 + (if isLeap y then 1 else 0) := by
  by_cases h : isLeap y = true <;>
    simp [daysBeforeMonth, daysInMonth, h]

/-- The month recurrence of `daysBeforeMonth`, for real months. -/
theorem daysBeforeMonth_succ (y m : Nat) (hm : 1 ≤ m) :
    daysBeforeMonth y (m + 1) = daysBeforeMonth y m + daysInMonth y m := by
  obtain ⟨k, rfl⟩ : ∃ k, m = k + 1 := ⟨m - 1, by omega⟩
  rfl

/-- Stepping one day forward adds one to the proleptic ordinal. -/
theorem toOrdinal_nextDay (d : Date) (h : d.okRange) :
    toOrdinal (nextDay d) = toOrdinal d + 1 := by
  obtain ⟨hy, hm1, hm2, hd1, hd2⟩ := h
  unfold nextDay
  split_ifs with h1 h2
  · unfold toOrdinal
    dsimp only
    omega
  · unfold toOrdinal
    dsimp only
    rw [daysBeforeMonth_succ d.year d.month hm1]
    omega
  · have hm12 : d.month = 12 := by omega
    have hday31 : d.day = 31 := by
      have hx : d.day = daysInMonth d.year d.month := by omega
      rw [hm12] at hx
      unfold daysInMonth at hx
      norm_num at hx
      exact hx
    unfold toOrdinal
    dsimp only
    rw [daysBeforeYear_succ d.year hy, hm12]
    have h12 := daysBeforeMonth_12 d.year
    have h1a : daysBeforeMonth (d.year + 1) 1 = 0 := rfl
    omega

/-- Stepping one day forward preserves the calendar range invariant. -/
theorem okRange_nextDay (d : Date) (h : d.okRange) : (nextDay d).okRange := by
  obtain ⟨hy, hm1, hm2, hd1, hd2⟩ := h
  have hb2 := daysInMonth_bounds d.year (d.month + 1)
  have hb3 := daysInMonth_bounds (d.year + 1) 1
  unfold nextDay
  split_ifs with h1 h2 <;> unfold Date.okRange <;> dsimp only <;> omega

/-- Date addition preserves the calendar range invariant. -/
theorem okRange_addDays (d : Date) (n : Nat) (h : d.okRange) :
    (addDays d n).okRange := by
  induction n with
  | zero => exact h
  | succ k ih => exact okRange_nextDay _ ih

/-- `addDays` through the ordinal. -/
theorem toOrdinal_addDays (d : Date) (n : Nat) (h : d.okRange) :
    toOrdinal (addDays d n) = toOrdinal d + n := by
  induction n with
  | zero => rfl
  | succ k ih =>
    have hstep := toOrdinal_nextDay (addDays d k) (okRange_addDays d k h)
    unfold addDays
    omega

/-- Ordinals of in-range dates are positive. -/
theorem toOrdinal_pos (d : Date) (h : d.okRange) : 1 ≤ toOrdinal d := by
  obtain ⟨hy, hm1, hm2, hd1, hd2⟩ := h
  unfold toOrdinal
  omega

/-- The weekday of a shifted date, through the ordinal. -/
theorem weekday_addDays (d : Date) (n : Nat) (h : d.okRange) :
    weekday (addDays d n) = (toOrdinal d + n - 1) % 7 := by
  unfold weekday
  rw [toOrdinal_addDays d n h]

/-! ### Dissecting the upcoming-birthdays loop -/

/-- A successful `replace(year=...)` yields exactly the expected triple,
and it is in calendar range. -/
theorem dateReplaceYear_ok (d : Date) (y : Nat) (d2 : Date)
    (h : dateReplaceYear d y = Except.ok d2) :
    d2 = ⟨y, d.month, d.day⟩ ∧ d2.okRange := by
  unfold dateReplaceYear at h
  by_cases h1 : (!(1 ≤ y && y ≤ 9999)) = true
  · rw [if_pos h1] at h
    exact absurd h (by simp)
  · rw [if_neg h1] at h
    by_cases h2 : (!(1 ≤ d.month && d.month ≤ 12)) = true
    · rw [if_pos h2] at h
      exact absurd h (by simp)
    · rw [if_neg h2] at h
      by_cases h3 : (!(1 ≤ d.day && d.day ≤ daysInMonth y d.month)) = true
      · rw [if_pos h3] at h
        exact absurd h (by simp)
      · rw [if_neg h3] at h
        injection h with hh
        simp at h1 h2 h3
        refine ⟨hh.symm, ?_⟩
        rw [← hh]
        exact ⟨show 1 ≤ y by omega, show 1 ≤ d.month by omega,
          show d.month ≤ 12 by omega, show 1 ≤ d.day by omega, h3.2⟩

/-- A rolled-forward birthday is in calendar range. -/
theorem rolledBday_okRange (today b d : Date)
    (h : rolledBday today b = some d) : d.okRange := by
  unfold rolledBday at h
  split at h
  next e heq => cases h
  next d1 heq =>
    by_cases hlt : dateLt d1 today = true
    · rw [if_pos hlt] at h
      cases hrep2 : dateReplaceYear d1 (today.year + 1) with
      | error e2 =>
        rw [hrep2] at h
        simp [Except.toOption] at h
      | ok d2 =>
        rw [hrep2] at h
        simp [Except.toOption] at h
        rw [← h]
        exact (dateReplaceYear_ok d1 (today.year + 1) d2 hrep2).2
    · rw [if_neg hlt] at h
      injection h with hh
      rw [← hh]
      exact (dateReplaceYear_ok b today.year d1 heq).2

/-- Full case analysis of one pass through the loop body: either the
record qualifies (its birthday rolls into the window) and the body
produces exactly the entry the spec describes, or it does not qualify
and the body produces nothing — an entry-less success or an escaping
`ValueError`. -/
theorem processRecordS_cases (today : Date) (r : Record) :
    (recordQualifies today r = true ∧
      ∃ bobj d, r.birthday = some bobj ∧ rolledBday today bobj.value = some d ∧
        (dateLe today d && dateLe d (addDays today 7)) = true ∧
        (processRecordS today r).1 = Except.ok (some
          ⟨r.name.value, renderDate (if weekday d == 5 then addDays d 2
            else if weekday d == 6 then addDays d 1 else d)⟩)) ∨
    (recordQualifies today r = false ∧
      ((processRecordS today r).1 = Except.ok none ∨
        ∃ e, (processRecordS today r).1 = Except.error e)) := by
  cases hb : r.birthday with
  | none =>
    right
    constructor
    · simp [recordQualifies, hb]
    · left
      simp [processRecordS, hb]
  | some bobj =>
    cases hrep : dateReplaceYear bobj.value today.year with
    | error e =>
      right
      constructor
      · simp [recordQualifies, rolledBday, hb, hrep]
      · right
        exact ⟨e, by simp [processRecordS, hb, hrep]⟩
    | ok d1 =>
      by_cases hlt : dateLt d1 today = true
      · cases hrep2 : dateReplaceYear d1 (today.year + 1) with
        | error e2 =>
          right
          constructor
          · simp [recordQualifies, rolledBday, hb, hrep, hlt, Except.toOption, hrep2]
          · right
            exact ⟨e2, by simp [processRecordS, hb, hrep, hlt, hrep2]⟩
        | ok d2 =>
          by_cases hwin : (dateLe today d2 && dateLe d2 (addDays today 7)) = true
          · left
            constructor
            · simp [recordQualifies, rolledBday, hb, hrep, hlt, Except.toOption, hrep2, hwin]
            · exact ⟨bobj, d2, rfl,
                by simp [rolledBday, hrep, hlt, Except.toOption, hrep2],
                hwin,
                by simp [processRecordS, hb, hrep, hlt, hrep2, hwin]⟩
          · right
            constructor
            · cases hq : recordQualifies today r with
              | false => rfl
              | true =>
                exfalso
                simp [recordQualifies, rolledBday, hb, hrep, hlt, Except.toOption, hrep2] at hq
                refine hwin ?_
                rw [Bool.and_eq_true]
                exact hq
            · left
              simp [processRecordS, hb, hrep, hlt, hrep2, hwin]
      · by_cases hwin : (dateLe today d1 && dateLe d1 (addDays today 7)) = true
        · left
          constructor
          · simp [recordQualifies, rolledBday, hb, hrep, hlt, hwin]
          · exact ⟨bobj, d1, rfl,
              by simp [rolledBday, hrep, hlt],
              hwin,
              by simp [processRecordS, hb, hrep, hlt, hwin]⟩
        · right
          constructor
          · cases hq : recordQualifies today r with
            | false => rfl
            | true =>
              exfalso
              simp [recordQualifies, rolledBday, hb, hrep, hlt] at hq
              refine hwin ?_
              rw [Bool.and_eq_true]
              exact hq
          · left
            simp [processRecordS, hb, hrep, hlt, hwin]

/-- The result component of the query is the result component of the
loop. -/
theorem get_upcoming_birthdays_fst (book : AddressBook) (today : Date) :
    (book.get_upcoming_birthdays today).1 = (collectUpcomingS today book.data).1 := by
  unfold AddressBook.get_upcoming_birthdays
  cases hc : collectUpcomingS today book.data with
  | mk res l => rfl

/-- Counting entries with a given name in a successful run of the loop:
one per record whose own name matches and which qualifies. -/
theorem collectUpcomingS_count (today : Date) (l : List (String × Record))
    (out : List Entry) (name : String)
    (h : (collectUpcomingS today l).1 = Except.ok out) :
    out.countP (fun e => e.name == name) =
      l.countP (fun p => p.2.name.value == name && recordQualifies today p.2) := by
  induction l generalizing out with
  | nil =>
    unfold collectUpcomingS at h
    simp at h
    subst h
    simp
  | cons p rest ih =>
    obtain ⟨k, r⟩ := p
    unfold collectUpcomingS at h
    cases hp : processRecordS today r with
    | mk res r1 =>
      rw [hp] at h
      cases res with
      | error e => simp at h
      | ok o =>
        cases hc : collectUpcomingS today rest with
        | mk res2 rest1 =>
          rw [hc] at h
          simp at h
          cases res2 with
          | error e2 => simp [Except.map] at h
          | ok out2 =>
            simp [Except.map] at h
            have hfst : (collectUpcomingS today rest).1 = Except.ok out2 := by
              rw [hc]
            have ihr := ih out2 hfst
            rw [← h, List.countP_append, List.countP_cons, ihr]
            rcases processRecordS_cases today r with
              ⟨hq, bobj, d, hb2, hroll2, hwin2, hfst2⟩ | ⟨hq, hrest⟩
            · rw [hp] at hfst2
              simp at hfst2
              rw [hfst2]
              simp only [Option.toList_some, List.countP_cons, List.countP_nil]
              simp [hq]
              by_cases hn : r.name.value = name
              · simp [hn]
                omega
              · simp [hn]
            · have ho : o = none := by
                rcases hrest with hok2 | ⟨e, herr⟩
                · rw [hp] at hok2
                  simpa using hok2
                · rw [hp] at herr
                  simp at herr
              rw [ho]
              simp [hq]

/-- Any entry a qualifying member record produces is in the output of a
successful run. -/
theorem collectUpcomingS_mem (today : Date) (l : List (String × Record))
    (out : List Entry) (k : String) (r : Record) (e : Entry)
    (h : (collectUpcomingS today l).1 = Except.ok out)
    (hmem : (k, r) ∈ l)
    (he : (processRecordS today r).1 = Except.ok (some e)) : e ∈ out := by
  induction l generalizing out with
  | nil => cases hmem
  | cons p rest ih =>
    obtain ⟨k1, r1⟩ := p
    unfold collectUpcomingS at h
    cases hp : processRecordS today r1 with
    | mk res r2 =>
      rw [hp] at h
      cases res with
      | error e2 => simp at h
      | ok o =>
        cases hc : collectUpcomingS today rest with
        | mk res2 rest1 =>
          rw [hc] at h
          simp at h
          cases res2 with
          | error e3 => simp [Except.map] at h
          | ok out2 =>
            simp [Except.map] at h
            rcases List.mem_cons.mp hmem with heq | hmem2
            · rw [Prod.mk.injEq] at heq
              obtain ⟨he1, he2⟩ := heq
              subst he2
              rw [hp] at he
              simp at he
              rw [← h, he]
              simp
            · have hfst : (collectUpcomingS today rest).1 = Except.ok out2 := by
                rw [hc]
              have := ih out2 hfst hmem2
              rw [← h]
              simp [this]

/-- In a well-formed book, counting by one member's name isolates
exactly that member. -/
theorem countP_unique_key (l : List (String × Record)) (name : String) (r : Record)
    (hnd : (l.map Prod.fst).Nodup) (hself : ∀ p ∈ l, p.1 = p.2.name.value)
    (hmem : (name, r) ∈ l) (q : Record → Bool) :
    l.countP (fun p => p.2.name.value == name && q p.2) = if q r then 1 else 0 := by
  induction l with
  | nil => cases hmem
  | cons p0 rest ih =>
    obtain ⟨k1, r1⟩ := p0
    rw [List.countP_cons]
    simp only [List.map_cons, List.nodup_cons] at hnd
    have hk1 : k1 = r1.name.value := hself (k1, r1) (List.mem_cons_self _ _)
    rcases List.mem_cons.mp hmem with heq | hmem2
    · rw [Prod.mk.injEq] at heq
      obtain ⟨he1, he2⟩ := heq
      subst he1
      subst he2
      have hz : rest.countP (fun p => p.2.name.value == name && q p.2) = 0 := by
        rw [List.countP_eq_zero]
        intro p hp
        have hpk : p.1 = p.2.name.value := hself p (List.mem_cons_of_mem _ hp)
        have hne : p.1 ≠ name := by
          intro hx
          exact hnd.1 (hx ▸ List.mem_map.mpr ⟨p, hp, rfl⟩)
        have hne2 : p.2.name.value ≠ name := by
          rw [← hpk]
          exact hne
        simp [hne2]
      rw [hz]
      simp [← hk1]
    · have hnamein : name ∈ rest.map Prod.fst :=
        List.mem_map.mpr ⟨(name, r), hmem2, rfl⟩
      have hne : k1 ≠ name := fun hx => hnd.1 (hx ▸ hnamein)
      have hhead : (r1.name.value == name && q r1) = false := by
        simp [← hk1, hne]
      rw [hhead]
      have := ih hnd.2 (fun p hp => hself p (List.mem_cons_of_mem _ hp)) hmem2
      simp [this]

/-- C2: in a successful run over a well-formed book, the output holds
exactly one entry for a member record precisely when that record has a
birthday whose month/day applied to the current year — rolled forward a
year when already past — lies in the inclusive window
`[today, today + 7]`; otherwise (including records with no birthday) it
holds none. -/
theorem upcoming_entries_iff_window (book : AddressBook) (today : Date)
    (out : List Entry) (name : String) (r : Record)
    (hok : (book.get_upcoming_birthdays today).1 = Except.ok out)
    (hwf : book.WF) (hmem : (name, r) ∈ book.data) :
    out.countP (fun e => e.name == name) =
      if recordQualifies today r then 1 else 0 := by
  rw [get_upcoming_birthdays_fst] at hok
  rw [collectUpcomingS_count today book.data out name hok]
  exact countP_unique_key book.data name r hwf.1 hwf.2 hmem (recordQualifies today)

/-- Witness for C2 (the spec §8 "Alice" example): today Monday
2024-06-03, Alice's birthday two days ahead — exactly one entry. -/
theorem upcoming_entries_iff_window_witness :
    ([(⟨"Alice", "05.06.2024"⟩ : Entry)].countP (fun e => e.name == "Alice")) =
      if recordQualifies ⟨2024, 6, 3⟩ ⟨⟨"Alice"⟩, [], some ⟨⟨1990, 6, 5⟩⟩⟩ then 1 else 0 :=
  upcoming_entries_iff_window
    (AddressBook.add_record ⟨[]⟩ ⟨⟨"Alice"⟩, [], some ⟨⟨1990, 6, 5⟩⟩⟩)
    ⟨2024, 6, 3⟩ [⟨"Alice", "05.06.2024"⟩] "Alice" ⟨⟨"Alice"⟩, [], some ⟨⟨1990, 6, 5⟩⟩⟩
    rfl (by decide) (by decide)

/-- C4: a qualifying record's entry carries the in-window date shifted
two days forward on a Saturday and one on a Sunday — landing on a
Monday either way — or unshifted on weekdays, rendered "DD.MM.YYYY". -/
theorem upcoming_congratulation_date (book : AddressBook) (today : Date)
    (out : List Entry) (name : String) (r : Record) (bobj : Birthday) (d : Date)
    (hok : (book.get_upcoming_birthdays today).1 = Except.ok out)
    (hmem : (name, r) ∈ book.data)
    (hb : r.birthday = some bobj)
    (hroll : rolledBday today bobj.value = some d)
    (hwin : (dateLe today d && dateLe d (addDays today 7)) = true) :
    (⟨r.name.value, renderDate (if weekday d = 5 then addDays d 2
        else if weekday d = 6 then addDays d 1 else d)⟩ : Entry) ∈ out ∧
    ((weekday d = 5 ∨ weekday d = 6) →
      weekday (if weekday d = 5 then addDays d 2
        else if weekday d = 6 then addDays d 1 else d) = 0) ∧
    (weekday d ≠ 5 → weekday d ≠ 6 →
      (if weekday d = 5 then addDays d 2
        else if weekday d = 6 then addDays d 1 else d) = d) := by
  have hdok : d.okRange := rolledBday_okRange today bobj.value d hroll
  refine ⟨?_, ?_, ?_⟩
  · rcases processRecordS_cases today r with
      ⟨hq, bobj2, d2, hb2, hroll2, hwin2, hfst⟩ | ⟨hq, hrest⟩
    · rw [hb] at hb2
      injection hb2 with hb2e
      subst hb2e
      rw [hroll] at hroll2
      injection hroll2 with hroll2e
      subst hroll2e
      rw [get_upcoming_birthdays_fst] at hok
      have hmemout := collectUpcomingS_mem today book.data out name r _ hok hmem hfst
      have hconv : (if weekday d == 5 then addDays d 2
          else if weekday d == 6 then addDays d 1 else d) =
          (if weekday d = 5 then addDays d 2
          else if weekday d = 6 then addDays d 1 else d) := by
        by_cases h5 : weekday d = 5
        · simp [h5]
        · by_cases h6 : weekday d = 6 <;> simp [h5, h6]
      rw [hconv] at hmemout
      exact hmemout
    · exfalso
      simp only [recordQualifies, hb, hroll, hwin] at hq
      exact Bool.noConfusion hq
  · intro h56
    have hordpos := toOrdinal_pos d hdok
    rcases h56 with h5 | h6
    · rw [if_pos h5, weekday_addDays d 2 hdok]
      unfold weekday at h5
      omega
    · by_cases h5 : weekday d = 5
      · rw [if_pos h5, weekday_addDays d 2 hdok]
        unfold weekday at h5
        omega
      · rw [if_neg h5, if_pos h6, weekday_addDays d 1 hdok]
        unfold weekday at h6
        omega
  · intro h5 h6
    rw [if_neg h5, if_neg h6]

/-- A concrete record and book for the C4 witness: Bob's birthday lands
on Saturday 2024-06-08, inside the week after Monday 2024-06-03. -/
def bobRecord : Record := ⟨⟨"Bob"⟩, [], some ⟨⟨1985, 6, 8⟩⟩⟩

def bobBook : AddressBook := AddressBook.add_record ⟨[]⟩ bobRecord

/-- Witness for C4 (the spec §8 "Bob" example): the Saturday birthday is
congratulated on Monday 2024-06-10, and the shifted date is a Monday. -/
theorem upcoming_congratulation_date_witness :
    (⟨"Bob", renderDate (if weekday ⟨2024, 6, 8⟩ = 5 then addDays ⟨2024, 6, 8⟩ 2
        else if weekday ⟨2024, 6, 8⟩ = 6 then addDays ⟨2024, 6, 8⟩ 1
        else ⟨2024, 6, 8⟩)⟩ : Entry) ∈ [(⟨"Bob", "10.06.2024"⟩ : Entry)] ∧
    weekday (addDays ⟨2024, 6, 8⟩ 2) = 0 := by
  have h := upcoming_congratulation_date bobBook ⟨2024, 6, 3⟩
    [⟨"Bob", "10.06.2024"⟩] "Bob" bobRecord ⟨⟨1985, 6, 8⟩⟩ ⟨2024, 6, 8⟩
    rfl (by decide) rfl rfl (by decide)
  refine ⟨h.1, ?_⟩
  have h2 := h.2.1 (Or.inl (by decide))
  rw [if_pos (by decide : weekday ⟨2024, 6, 8⟩ = 5)] at h2
  exact h2

/-! ### Parsing: field characterizations -/

/-- Digit characters are exactly code points 48..57. -/
theorem isDigit_toNat (c : Char) : c.isDigit = true ↔ 48 ≤ c.toNat ∧ c.toNat ≤ 57 := by
  simp [Char.isDigit]
  exact Iff.rfl

/-- The day field accepts exactly the one- or two-digit strings whose
value is 1..31. -/
theorem matchDayField_eq_some_iff (cs : List Char) (v : Nat) :
    matchDayField cs = some v ↔
      (cs.all Char.isDigit = true ∧ (cs.length = 1 ∨ cs.length = 2) ∧
        v = natOfDigits cs ∧ 1 ≤ v ∧ v ≤ 31) := by
  match cs with
  | [] => simp [matchDayField]
  | [c] =>
    have hnod : natOfDigits [c] = charVal c := by simp [natOfDigits]
    constructor
    · intro h
      simp only [matchDayField] at h
      by_cases hc : (c.isDigit && charVal c != 0) = true
      · rw [if_pos hc] at h
        injection h with hv
        rw [Bool.and_eq_true] at hc
        obtain ⟨hd, hnz⟩ := hc
        have hb := (isDigit_toNat c).mp hd
        have hcv : charVal c ≤ 9 := by unfold charVal; omega
        have hnz2 : charVal c ≠ 0 := by simpa using hnz
        exact ⟨by simp [hd], Or.inl rfl, by rw [hnod, hv], by omega, by omega⟩
      · rw [if_neg hc] at h
        cases h
    · rintro ⟨hall, _, hv, h1, h31⟩
      simp at hall
      have hnz : charVal c ≠ 0 := by rw [hnod] at hv; omega
      simp only [matchDayField]
      rw [if_pos (by simp [hall, hnz]), hv, hnod]
  | [c1, c2] =>
    have hnod : natOfDigits [c1, c2] = charVal c1 * 10 + charVal c2 := by
      simp [natOfDigits]
    constructor
    · intro h
      simp only [matchDayField] at h
      by_cases hc : (c1.isDigit && c2.isDigit) = true
      · rw [if_pos hc] at h
        rw [Bool.and_eq_true] at hc
        obtain ⟨hd1, hd2⟩ := hc
        by_cases hr : (1 ≤ charVal c1 * 10 + charVal c2 &&
            charVal c1 * 10 + charVal c2 ≤ 31) = true
        · simp only [hr, if_pos] at h
          injection h with hv
          simp at hr
          exact ⟨by simp [hd1, hd2], Or.inr rfl, by rw [hnod, hv],
            by omega, by omega⟩
        · simp only [hr, if_neg] at h
          cases h
      · rw [if_neg hc] at h
        cases h
    · rintro ⟨hall, _, hv, h1, h31⟩
      simp at hall
      rw [hnod] at hv
      simp only [matchDayField]
      rw [if_pos (by simp [hall.1, hall.2]), if_pos (by simp; omega), hv]
  | c1 :: c2 :: c3 :: t =>
    constructor
    · intro h
      rw [show matchDayField (c1 :: c2 :: c3 :: t) = none from rfl] at h
      cases h
    · rintro ⟨_, hlen, _⟩
      rcases hlen with h | h <;> simp at h

/-- The month field accepts exactly the one- or two-digit strings whose
value is 1..12. -/
theorem matchMonthField_eq_some_iff (cs : List Char) (v : Nat) :
    matchMonthField cs = some v ↔
      (cs.all Char.isDigit = true ∧ (cs.length = 1 ∨ cs.length = 2) ∧
        v = natOfDigits cs ∧ 1 ≤ v ∧ v ≤ 12) := by
  match cs with
  | [] => simp [matchMonthField]
  | [c] =>
    have hnod : natOfDigits [c] = charVal c := by simp [natOfDigits]
    constructor
    · intro h
      simp only [matchMonthField] at h
      by_cases hc : (c.isDigit && charVal c != 0) = true
      · rw [if_pos hc] at h
        injection h with hv
        rw [Bool.and_eq_true] at hc
        obtain ⟨hd, hnz⟩ := hc
        have hb := (isDigit_toNat c).mp hd
        have hcv : charVal c ≤ 9 := by unfold charVal; omega
        have hnz2 : charVal c ≠ 0 := by simpa using hnz
        exact ⟨by simp [hd], Or.inl rfl, by rw [hnod, hv], by omega, by omega⟩
      · rw [if_neg hc] at h
        cases h
    · rintro ⟨hall, _, hv, h1, h12⟩
      simp at hall
      have hnz : charVal c ≠ 0 := by rw [hnod] at hv; omega
      simp only [matchMonthField]
      rw [if_pos (by simp [hall, hnz]), hv, hnod]
  | [c1, c2] =>
    have hnod : natOfDigits [c1, c2] = charVal c1 * 10 + charVal c2 := by
      simp [natOfDigits]
    constructor
    · intro h
      simp only [matchMonthField] at h
      by_cases hc : (c1.isDigit && c2.isDigit) = true
      · rw [if_pos hc] at h
        rw [Bool.and_eq_true] at hc
        obtain ⟨hd1, hd2⟩ := hc
        by_cases hr : (1 ≤ charVal c1 * 10 + charVal c2 &&
            charVal c1 * 10 + charVal c2 ≤ 12) = true
        · simp only [hr, if_pos] at h
          injection h with hv
          simp at hr
          exact ⟨by simp [hd1, hd2], Or.inr rfl, by rw [hnod, hv],
            by omega, by omega⟩
        · simp only [hr, if_neg] at h
          cases h
      · rw [if_neg hc] at h
        cases h
    · rintro ⟨hall, _, hv, h1, h12⟩
      simp at hall
      rw [hnod] at hv
      simp only [matchMonthField]
      rw [if_pos (by simp [hall.1, hall.2]), if_pos (by simp; omega), hv]
  | c1 :: c2 :: c3 :: t =>
    constructor
    · intro h
      rw [show matchMonthField (c1 :: c2 :: c3 :: t) = none from rfl] at h
      cases h
    · rintro ⟨_, hlen, _⟩
      rcases hlen with h | h <;> simp at h

/-- The year field accepts exactly the four-digit strings. -/
theorem matchYearField_eq_some_iff (cs : List Char) (v : Nat) :
    matchYearField cs = some v ↔
      (cs.all Char.isDigit = true ∧ cs.length = 4 ∧ v = natOfDigits cs) := by
  match cs with
  | [c1, c2, c3, c4] =>
    have hnod : natOfDigits [c1, c2, c3, c4] =
        charVal c1 * 1000 + charVal c2 * 100 + charVal c3 * 10 + charVal c4 := by
      simp [natOfDigits]
      ring
    constructor
    · intro h
      simp only [matchYearField] at h
      by_cases hc : (c1.isDigit && c2.isDigit && c3.isDigit && c4.isDigit) = true
      · rw [if_pos hc] at h
        injection h with hv
        simp only [Bool.and_eq_true] at hc
        exact ⟨by simp [hc.1.1.1, hc.1.1.2, hc.1.2, hc.2],
          rfl, by rw [hnod, hv]⟩
      · rw [if_neg hc] at h
        cases h
    · rintro ⟨hall, _, hv⟩
      simp at hall
      simp only [matchYearField]
      rw [if_pos (by simp [hall.1, hall.2.1, hall.2.2.1, hall.2.2.2]), hv, hnod]
  | [] =>
    rw [show matchYearField [] = none from rfl]
    simp
  | [c1] =>
    rw [show matchYearField [c1] = none from rfl]
    simp
  | [c1, c2] =>
    rw [show matchYearField [c1, c2] = none from rfl]
    simp
  | [c1, c2, c3] =>
    rw [show matchYearField [c1, c2, c3] = none from rfl]
    simp
  | c1 :: c2 :: c3 :: c4 :: c5 :: t =>
    rw [show matchYearField (c1 :: c2 :: c3 :: c4 :: c5 :: t) = none from rfl]
    simp

/-- Four digit characters denote a number below 10000. -/
theorem natOfDigits_four_le (c1 c2 c3 c4 : Char)
    (h : ([c1, c2, c3, c4].all Char.isDigit) = true) :
    natOfDigits [c1, c2, c3, c4] ≤ 9999 := by
  simp at h
  obtain ⟨h1, h2, h3, h4⟩ := h
  have b1 := (isDigit_toNat c1).mp h1
  have b2 := (isDigit_toNat c2).mp h2
  have b3 := (isDigit_toNat c3).mp h3
  have b4 := (isDigit_toNat c4).mp h4
  simp [natOfDigits, charVal]
  omega

/-- A four-character digit string denotes a number below 10000. -/
theorem natOfDigits_len4_le (cs : List Char) (hall : cs.all Char.isDigit = true)
    (hlen : cs.length = 4) : natOfDigits cs ≤ 9999 := by
  rcases cs with _ | ⟨c1, _ | ⟨c2, _ | ⟨c3, _ | ⟨c4, _ | ⟨c5, t⟩⟩⟩⟩⟩
  · simp at hlen
  · simp at hlen
  · simp at hlen
  · simp at hlen
  · exact natOfDigits_four_le c1 c2 c3 c4 hall
  · simp at hlen

/-- C5 counterexample: the code accepts "1.1.2024" — `strptime` treats
the leading zeros of `%d` and `%m` as optional — although that string
is not in the exact "DD.MM.YYYY" shape, so construction does not
succeed only on exact-format strings. -/
theorem birthday_exact_format_counterexample :
    Birthday.init "1.1.2024" = Except.ok ⟨⟨2024, 1, 1⟩⟩ ∧
    specExactDDMMYYYY "1.1.2024" = false :=
  ⟨rfl, rfl⟩
/-- C5 as amended: `Birthday` construction succeeds exactly on strings
day.month.year with one- or two-digit day and month, four-digit year,
denoting a real calendar date; anything else fails with the validation
error. -/
theorem birthday_lenient_format (s : String) :
    ((∃ b, Birthday.init s = Except.ok b) ↔ specLenientFormat s = true) ∧
    ((∃ m, Birthday.init s = Except.error (VErr.validation m)) ↔
      specLenientFormat s = false) := by
  have hmain : (∃ b, Birthday.init s = Except.ok b) ↔ specLenientFormat s = true := by
    unfold Birthday.init specLenientFormat
    cases hsp : splitOnDot s.data with
    | nil => simp
    | cons g1 gs1 =>
      cases gs1 with
      | nil => simp
      | cons g2 gs2 =>
        cases gs2 with
        | cons g3 gs3 =>
          cases gs3 with
          | cons g4 gs4 => simp
          | nil =>
            constructor
            · rintro ⟨b, hb⟩
              cases hd : matchDayField g1 with
              | none => simp [hd] at hb
              | some d =>
                cases hm : matchMonthField g2 with
                | none => simp [hd, hm] at hb
                | some m =>
                  cases hy : matchYearField g3 with
                  | none => simp [hd, hm, hy] at hb
                  | some y =>
                    simp only [hd, hm, hy] at hb
                    by_cases hc : (1 ≤ y && d ≤ daysInMonth y m) = true
                    · obtain ⟨hall1, hlen1, hv1, hd1, hd31⟩ :=
                        (matchDayField_eq_some_iff g1 d).mp hd
                      obtain ⟨hall2, hlen2, hv2, hm1, hm12⟩ :=
                        (matchMonthField_eq_some_iff g2 m).mp hm
                      obtain ⟨hall3, hlen3, hv3⟩ :=
                        (matchYearField_eq_some_iff g3 y).mp hy
                      subst hv1
                      subst hv2
                      subst hv3
                      simp only [Bool.and_eq_true, decide_eq_true_eq] at hc
                      have hy9999 : natOfDigits g3 ≤ 9999 :=
                        natOfDigits_len4_le g3 hall3 hlen3
                      have hdim := daysInMonth_bounds (natOfDigits g3) (natOfDigits g2)
                      simp [hall1, hall2, hall3, Date.valid]
                      repeat' apply And.intro
                      all_goals first
                        | exact hlen1
                        | exact hlen2
                        | omega
                    · exfalso
                      simp [hc] at hb
            · intro hq
              simp at hq
              obtain ⟨⟨⟨⟨⟨⟨ha1, hlen1⟩, ha2⟩, hlen2⟩, ha3⟩, hlen3⟩, hvalid⟩ := hq
              simp [Date.valid] at hvalid
              have hdim := daysInMonth_bounds (natOfDigits g3) (natOfDigits g2)
              have hd := (matchDayField_eq_some_iff g1 (natOfDigits g1)).mpr
                ⟨by simpa using ha1, hlen1, rfl, by omega, by omega⟩
              have hm := (matchMonthField_eq_some_iff g2 (natOfDigits g2)).mpr
                ⟨by simpa using ha2, hlen2, rfl, by omega, by omega⟩
              have hy := (matchYearField_eq_some_iff g3 (natOfDigits g3)).mpr
                ⟨by simpa using ha3, hlen3, rfl⟩
              simp only [hd, hm, hy]
              rw [if_pos (by simp; omega)]
              exact ⟨_, rfl⟩
        | nil => simp
  constructor
  · exact hmain
  · constructor
    · rintro ⟨m, hm⟩
      cases hq : specLenientFormat s with
      | false => rfl
      | true =>
        obtain ⟨b, hb⟩ := hmain.mpr hq
        rw [hb] at hm
        cases hm
    · intro hq
      cases hinit : Birthday.init s with
      | ok b =>
        have h2 : specLenientFormat s = true := hmain.mp ⟨b, hinit⟩
        rw [h2] at hq
        cases hq
      | error e =>
        have he : e = VErr.validation invalidDateMsg := by
          unfold Birthday.init at hinit
          split at hinit
          next ds ms ys =>
            split at hinit
            next d m y =>
              split at hinit
              · simp at hinit
              · simp at hinit
                simp [hinit]
            next hno => simp at hinit; simp [hinit]
          next hno => simp at hinit; simp [hinit]
        exact ⟨invalidDateMsg, by rw [he]⟩

/-! ### C7: the render/parse round-trip -/

/-- The ten digit characters: digit class, value, and not a dot. -/
theorem digitChar_spec (k : Nat) (h : k < 10) :
    (digitChar k).isDigit = true ∧ charVal (digitChar k) = k ∧ digitChar k ≠ '.' := by
  interval_cases k <;> exact ⟨by decide, by decide, by decide⟩

/-- Splitting a dot-free list produces one group. -/
theorem splitOnDot_nodot (xs : List Char) (h : ∀ c ∈ xs, c ≠ '.') :
    splitOnDot xs = [xs] := by
  induction xs with
  | nil => rfl
  | cons c t ih =>
    have hc : c ≠ '.' := h c (List.mem_cons_self _ _)
    have ht := ih (fun c2 hc2 => h c2 (List.mem_cons_of_mem _ hc2))
    simp [splitOnDot, hc, ht]

/-- Splitting at the first dot after a dot-free group. -/
theorem splitOnDot_append (xs rest : List Char) (h : ∀ c ∈ xs, c ≠ '.') :
    splitOnDot (xs ++ '.' :: rest) = xs :: splitOnDot rest := by
  induction xs with
  | nil => simp [splitOnDot]
  | cons c t ih =>
    have hc : c ≠ '.' := h c (List.mem_cons_self _ _)
    have ht := ih (fun c2 hc2 => h c2 (List.mem_cons_of_mem _ hc2))
    simp [splitOnDot, hc, ht]

/-- Two-digit renderings contain no dot. -/
theorem mem_pad2_ne_dot (n : Nat) : ∀ c ∈ pad2 n, c ≠ '.' := by
  intro c hc
  unfold pad2 at hc
  simp at hc
  rcases hc with h | h <;> subst h
  · exact (digitChar_spec (n / 10 % 10) (Nat.mod_lt _ (by norm_num))).2.2
  · exact (digitChar_spec (n % 10) (Nat.mod_lt _ (by norm_num))).2.2

/-- Four-digit renderings contain no dot. -/
theorem mem_pad4_ne_dot (n : Nat) : ∀ c ∈ pad4 n, c ≠ '.' := by
  intro c hc
  unfold pad4 at hc
  simp at hc
  rcases hc with h | h | h | h <;> subst h <;>
    exact (digitChar_spec _ (Nat.mod_lt _ (by norm_num))).2.2

/-- The day field reads back a rendered day. -/
theorem matchDayField_pad2 (n : Nat) (h1 : 1 ≤ n) (h2 : n ≤ 31) :
    matchDayField (pad2 n) = some n := by
  have ha := digitChar_spec (n / 10 % 10) (Nat.mod_lt _ (by norm_num))
  have hb := digitChar_spec (n % 10) (Nat.mod_lt _ (by norm_num))
  unfold pad2
  simp only [matchDayField]
  have hv : charVal (digitChar (n / 10 % 10)) * 10 + charVal (digitChar (n % 10)) = n := by
    rw [ha.2.1, hb.2.1]
    omega
  rw [if_pos (by simp [ha.1, hb.1]), hv]
  rw [if_pos (by simp; omega)]

/-- The month field reads back a rendered month. -/
theorem matchMonthField_pad2 (n : Nat) (h1 : 1 ≤ n) (h2 : n ≤ 12) :
    matchMonthField (pad2 n) = some n := by
  have ha := digitChar_spec (n / 10 % 10) (Nat.mod_lt _ (by norm_num))
  have hb := digitChar_spec (n % 10) (Nat.mod_lt _ (by norm_num))
  unfold pad2
  simp only [matchMonthField]
  have hv : charVal (digitChar (n / 10 % 10)) * 10 + charVal (digitChar (n % 10)) = n := by
    rw [ha.2.1, hb.2.1]
    omega
  rw [if_pos (by simp [ha.1, hb.1]), hv]
  rw [if_pos (by simp; omega)]

/-- The year field reads back a rendered year. -/
theorem matchYearField_pad4 (n : Nat) (h : n ≤ 9999) :
    matchYearField (pad4 n) = some n := by
  have h1 := digitChar_spec (n / 1000 % 10) (Nat.mod_lt _ (by norm_num))
  have h2 := digitChar_spec (n / 100 % 10) (Nat.mod_lt _ (by norm_num))
  have h3 := digitChar_spec (n / 10 % 10) (Nat.mod_lt _ (by norm_num))
  have h4 := digitChar_spec (n % 10) (Nat.mod_lt _ (by norm_num))
  unfold pad4
  simp only [matchYearField]
  rw [if_pos (by simp [h1.1, h2.1, h3.1, h4.1])]
  rw [h1.2.1, h2.2.1, h3.2.1, h4.2.1]
  congr 1
  omega

/-- C7: for every valid calendar date, rendering it as "DD.MM.YYYY" and
constructing a `Birthday` from that text succeeds, stores exactly the
same date, and the `Birthday` re-renders to the very same text. -/
theorem birthday_render_roundtrip (d : Date) (hv : d.valid = true) :
    Birthday.init (renderDate d) = Except.ok ⟨d⟩ ∧
    Birthday.toString ⟨d⟩ = renderDate d := by
  constructor
  · simp [Date.valid] at hv
    obtain ⟨⟨⟨⟨⟨hy1, hy2⟩, hm1⟩, hm2⟩, hd1⟩, hd2⟩ := hv
    have hdim := daysInMonth_bounds d.year d.month
    have hshape : (renderDate d).data =
        pad2 d.day ++ '.' :: (pad2 d.month ++ '.' :: pad4 d.year) := by
      show renderChars d = _
      unfold renderChars
      simp
    unfold Birthday.init
    rw [hshape,
      splitOnDot_append _ _ (mem_pad2_ne_dot d.day),
      splitOnDot_append _ _ (mem_pad2_ne_dot d.month),
      splitOnDot_nodot _ (mem_pad4_ne_dot d.year)]
    simp only [matchDayField_pad2 d.day hd1 (by omega),
      matchMonthField_pad2 d.month hm1 hm2,
      matchYearField_pad4 d.year hy2]
    rw [if_pos (by simp; omega)]
  · rfl

/-- Witness for C7 at the leap date February 29, 2024. -/
theorem birthday_render_roundtrip_witness :
    Birthday.init (renderDate ⟨2024, 2, 29⟩) = Except.ok ⟨⟨2024, 2, 29⟩⟩ ∧
    Birthday.toString ⟨⟨2024, 2, 29⟩⟩ = renderDate ⟨2024, 2, 29⟩ :=
  birthday_render_roundtrip ⟨2024, 2, 29⟩ (by decide)
